import Mathlib

/-!
Verification of the embedded JavaScript runtime (`js` crate).

This file gives a shallow embedding of the runtime's pure core, translated
from the Rust sources:

* `src/js/src/runtime.rs` — `Runtime::prepare_script`, the worker receive
  loop (`Runtime::spawn_worker`), the `context` module (`context::init`,
  `context::eval`, `context::module_normalize`, `context::module_loader`,
  `context::Console`), and the `Error` / `Script` / `Function` types;
* `src/js/src/context.rs` — the alternative `module_loader` with the
  directory `index.js` fallback.

Engine-level effects (QuickJS evaluation, `deno_ast` transpilation,
compilation of sources into engine handles) are external collaborators; they
are modelled as explicit oracles (`Engine`, `InitEngine`) whose outcomes are
universally quantified in the theorems, while a compiled handle is modelled
by the pair of the compiled source text and its key, exactly the data
`quickjs_rusty::compile::compile(js_context, &code, &name)` receives.

Rust `std::path` operations (`Path::components`, `Path::parent`,
`PathBuf::push`) are re-implemented on `String` following their documented
POSIX behaviour: components are the nonempty slash-separated segments, a
leading `/` is a root component, interior `.` segments are normalized away
while a leading `.` of a relative path is kept as a `CurDir` component.
-/

namespace Js

/-! ### String helpers (kernel-friendly replacements for Rust `str` ops) -/

/-- Split a character list at every occurrence of `c` (like Rust's
`split('/')`, keeping empty segments). -/
def splitOnChar (c : Char) : List Char → List (List Char)
  | [] => [[]]
  | x :: xs =>
    let r := splitOnChar c xs
    if x = c then [] :: r
    else
      match r with
      | y :: ys => (x :: y) :: ys
      | [] => [[x]]

/-- Boolean list-prefix test. -/
def isPrefixList : List Char → List Char → Bool
  | [], _ => true
  | _ :: _, [] => false
  | a :: as, b :: bs => a = b && isPrefixList as bs

/-- True when `s` starts with `pre` (Rust `str::starts_with`). -/
def startsWithStr (pre s : String) : Bool := isPrefixList pre.data s.data

/-- True when `s` ends with `suf` (Rust `str::ends_with`). -/
def endsWithStr (suf s : String) : Bool :=
  isPrefixList suf.data.reverse s.data.reverse

/-- Nonempty slash-separated segments of a path string. -/
def segsOf (p : String) : List String :=
  ((splitOnChar '/' p.data).map (fun l => String.mk l)).filter (fun s => s ≠ "")

/-- Join strings with `/` separators (`parts.iter().collect::<PathBuf>()`
for separator-free parts). -/
def joinWithSlash : List String → String
  | [] => ""
  | [s] => s
  | s :: rest => s ++ "/" ++ joinWithSlash rest

/-! ### Path components (Rust `std::path` on POSIX) -/

/-- Rust `std::path::Component`, restricted to the variants a POSIX path can
produce (`Prefix` never occurs and is covered by the source's `_ => {}`). -/
inductive Component
  | rootDir
  | curDir
  | parentDir
  | normal (s : String)
deriving DecidableEq

/-- Classify one nonempty, non-`"."` segment. -/
def classifySeg (s : String) : Component :=
  if s = ".." then Component.parentDir else Component.normal s

/-- Rust `Path::new(p).components()`: a leading `/` is `RootDir`; `.` segments
are normalized away except a leading `.` of a relative path; remaining
segments are `ParentDir` (`..`) or `Normal`. -/
def rustComponents (p : String) : List Component :=
  if startsWithStr "/" p then
    Component.rootDir :: ((segsOf p).filter (fun s => s ≠ ".")).map classifySeg
  else
    match segsOf p with
    | [] => []
    | s :: rest =>
      if s = "." then
        Component.curDir :: ((rest.filter (fun x => x ≠ ".")).map classifySeg)
      else ((s :: rest).filter (fun x => x ≠ ".")).map classifySeg

/-- Render one component (for `Path::parent` reconstruction). -/
def componentStr : Component → String
  | Component.rootDir => "/"
  | Component.curDir => "."
  | Component.parentDir => ".."
  | Component.normal s => s

/-- Render a component list back to a path string. -/
def renderComponents : List Component → String
  | Component.rootDir :: rest => "/" ++ joinWithSlash (rest.map componentStr)
  | l => joinWithSlash (l.map componentStr)

/-- Rust `Path::new(base).parent().unwrap_or_else(|| Path::new(""))`: the path
without its final component (`""` when there is none). -/
def dirname (base : String) : String :=
  renderComponents ((rustComponents base).dropLast)

/-- Rust `Path::join` / `PathBuf::push` for a relative right operand. -/
def pathJoin (dir s : String) : String :=
  if dir = "" then s
  else if endsWithStr "/" dir then dir ++ s
  else dir ++ "/" ++ s

/-! ### Module resolver (`context::module_normalize`, runtime.rs 364-413) -/

/-- One iteration of the component walk in `module_normalize`:
`ParentDir` pops the last element unless it is absent or `".."` (then `".."`
is pushed), `CurDir` is skipped, `Normal` is appended, `RootDir` clears. -/
def step (parts : List String) (c : Component) : List String :=
  match c with
  | Component.parentDir =>
    match parts.getLast? with
    | some last => if last ≠ ".." then parts.dropLast else parts ++ [".."]
    | none => parts ++ [".."]
  | Component.curDir => parts
  | Component.normal p => parts ++ [p]
  | Component.rootDir => []

/-- The output list of the component walk over a joined path. -/
def normalizeParts (p : String) : List String :=
  List.foldl step [] (rustComponents p)

/-- The resolver `context::module_normalize`: a specifier not starting with `./` or
`../` is returned unchanged; otherwise `dirname(base)` is joined with the
specifier, the components are folded with `step`, and the surviving parts
are joined with `/`. -/
def module_normalize (base s : String) : String :=
  if startsWithStr "./" s || startsWithStr "../" s then
    joinWithSlash (normalizeParts (pathJoin (dirname base) s))
  else s

/-! ### The resolver algorithm as the specification words it (§4.3) -/

/-- A path component as the spec describes it: a root marker or a raw
slash-separated segment. -/
inductive SpecComp
  | root
  | seg (s : String)
deriving DecidableEq

/-- The spec's view of the components of a path: a root marker when the
path is absolute, then every nonempty segment verbatim. -/
def specComponents (p : String) : List SpecComp :=
  (if startsWithStr "/" p then [SpecComp.root] else [])
    ++ (segsOf p).map SpecComp.seg

/-- The walk of §4.3 step 2: `.` → skip; `..` → pop the last element if it
exists and is not `..`, else append `..`; root → clear; normal → append. -/
def specStep (parts : List String) (c : SpecComp) : List String :=
  match c with
  | SpecComp.root => []
  | SpecComp.seg s =>
    if s = "." then parts
    else if s = ".." then
      match parts.getLast? with
      | some last => if last ≠ ".." then parts.dropLast else parts ++ [".."]
      | none => parts ++ [".."]
    else parts ++ [s]

/-- The function `normalise(base, s)` exactly as §4.3 of the spec words it. -/
def normalize_spec (base s : String) : String :=
  if startsWithStr "./" s || startsWithStr "../" s then
    joinWithSlash
      (List.foldl specStep [] (specComponents (pathJoin (dirname base) s)))
  else s

/-- The surviving parts have all `..` components at the front: the list is
`replicate k ".."` followed by a `..`-free remainder. -/
def dotsPrefixOnly (l : List String) : Prop :=
  ∃ k rest, l = List.replicate k ".." ++ rest ∧ ".." ∉ rest

/-! ### Data model of the runtime (`runtime.rs`) -/

/-- JSON values (`serde_json::Value`). -/
inductive Value
  | null
  | bool (b : Bool)
  | num (n : Int)
  | str (s : String)
  | arr (elems : List Value)
  | obj (fields : List (String × Value))

/-- The `Error` enum of `runtime.rs` (lines 16-36), with the foreign error
payloads abstracted to their diagnostic text. It has exactly these
variants; in particular there is no `FunctionNotFound` constructor. -/
inductive Error
  | Execution (msg : String)
  | Value (msg : String)
  | Serde (msg : String)
  | Context (msg : String)
  | Parse (msg : String)
  | Transpile (msg : String)
  | Unexpected (msg : String)
deriving DecidableEq

/-- The request type `Script` (runtime.rs 54-70), with the `transpiling` feature enabled. -/
inductive Script
  | Function (args : Option Value) (code : String)
  | RenderPage (args : Option Value) (name : String)
  | CompiledFunction (args : Option Value) (name : String)

/-- A `JsCompiledFunction` handle, modelled by the data handed to
`quickjs_rusty::compile::compile(js_context, &code, &name)`. -/
structure JsCompiledFunction where
  code : String
  key : String
deriving DecidableEq

/-- The prepared-source type `Function` (runtime.rs 78-82): a prepared script is either inline
source text or a compiled handle. -/
inductive Function
  | Code (s : String)
  | Compiled (f : JsCompiledFunction)
deriving DecidableEq

/-- The response type `ScriptOutput` (runtime.rs 72-76). -/
structure ScriptOutput where
  output : String
  console_output : String
deriving DecidableEq

/-- Lookup in the worker's compiled-function table
(`HashMap<String, JsCompiledFunction>` as an association list). -/
def tableGet (table : List (String × JsCompiledFunction)) (name : String) :
    Option JsCompiledFunction :=
  match table with
  | [] => none
  | (k, f) :: rest => if k = name then some f else tableGet rest name

/-- The inline fallback source built by the `format!` call in
`Runtime::prepare_script` (runtime.rs 171-174): the raw page name is
spliced in three times, unescaped. -/
def pageFallback (name : String) : String :=
  "globalThis.Pages." ++ name ++ " ? globalThis.Pages." ++ name ++
    "(args): \x27Page \x22" ++ name ++ "\x22 not found\x27"

/-- Script preparation, `Runtime::prepare_script` (runtime.rs 163-186). -/
def prepare_script (script : Script)
    (compiled_fns : List (String × JsCompiledFunction)) :
    Except Error (Option Value × Function) :=
  match script with
  | Script.RenderPage args name =>
    Except.ok (args, Function.Code (pageFallback name))
  | Script.Function args code => Except.ok (args, Function.Code code)
  | Script.CompiledFunction args name =>
    match tableGet compiled_fns name with
    | none =>
      Except.error (Error.Unexpected ("function " ++ name ++ " not found"))
    | some f => Except.ok (args, Function.Compiled f)

/-! ### Console sink (`context::Console`, runtime.rs 252-275) -/

/-- Join already-stringified console arguments with `", "`. -/
def joinCommaSpace : List String → String
  | [] => ""
  | [s] => s
  | s :: rest => s ++ ", " ++ joinCommaSpace rest

/-- The sink append `Console::log`: one `console.*` call appends the `", "`-joined values
plus a newline to the sink's buffer. -/
def consoleLog (buf : String) (values : List String) : String :=
  buf ++ joinCommaSpace values ++ "\n"

/-- The mutable interpreter-context state the embedding tracks: the buffer
of the currently installed console sink. -/
structure Ctx where
  console : String

/-- The observable behaviour of one engine-level script evaluation: the
sequence of `console.*` calls (each a list of already-stringified values)
and the stringified final value or the raised error. -/
structure EngineRun where
  consoleCalls : List (List String)
  result : Except Error String

/-- Oracle for the external QuickJS engine: serialisation of `args` into
the context, and evaluation of a prepared source. -/
structure Engine where
  serdeArgs : Option Value → Except Error Unit
  run : Function → Option Value → EngineRun

/-- Evaluation, `context::eval` (runtime.rs 415-446): install a fresh `Console::new()`
(empty buffer), bind `args`, evaluate, read the result and the buffer. -/
def eval (eng : Engine) (_ctx : Ctx) (args : Option Value)
    (source : Function) : Except Error ScriptOutput × Ctx :=
  match eng.serdeArgs args with
  | Except.error e => (Except.error e, ⟨""⟩)
  | Except.ok _ =>
    match (eng.run source args).result with
    | Except.error e =>
      (Except.error e,
       ⟨List.foldl consoleLog "" (eng.run source args).consoleCalls⟩)
    | Except.ok res =>
      (Except.ok ⟨res, List.foldl consoleLog "" (eng.run source args).consoleCalls⟩,
       ⟨List.foldl consoleLog "" (eng.run source args).consoleCalls⟩)

/-- One iteration of the worker receive loop (runtime.rs 144-159): prepare
the script, evaluate on success, answer the error otherwise. -/
def handleMessage (eng : Engine)
    (table : List (String × JsCompiledFunction)) (ctx : Ctx)
    (script : Script) : Except Error ScriptOutput × Ctx :=
  match prepare_script script table with
  | Except.ok (args, source) => eval eng ctx args source
  | Except.error e => (Except.error e, ctx)

/-- The worker receive loop over a queue of messages, threading the
context state; the reply sent for each message, in order. -/
def workerLoop (eng : Engine)
    (table : List (String × JsCompiledFunction)) :
    Ctx → List Script → List (Except Error ScriptOutput)
  | _, [] => []
  | ctx, s :: rest =>
    let p := handleMessage eng table ctx s
    p.1 :: workerLoop eng table p.2 rest

/-! ### Source tree and module loaders -/

/-- An entry of the embedded `include_dir::Dir` tree: a file (whose
contents are `none` when the bytes are not valid UTF-8) or a directory. -/
inductive VEntry
  | vfile (utf8 : Option String)
  | vdir
deriving DecidableEq

/-- The source tree, as a flat map from slash-separated paths to entries
(`include_dir` stores entries under their full relative path). -/
structure VTree where
  entries : List (String × VEntry)

/-- Lookup `Dir::get_entry` by exact path. -/
def getEntry (t : VTree) (p : String) : Option VEntry :=
  go t.entries
where
  go : List (String × VEntry) → Option VEntry
    | [] => none
    | (k, e) :: rest => if k = p then some e else go rest

/-- A file exists at `p`. -/
def isFileAt (t : VTree) (p : String) : Bool :=
  match getEntry t p with
  | some (VEntry.vfile _) => true
  | _ => false

/-- A directory exists at `p`. -/
def isDirAt (t : VTree) (p : String) : Bool :=
  match getEntry t p with
  | some VEntry.vdir => true
  | _ => false

/-- The distinct failure cases of the loaders' `anyhow!` branches. -/
inductive LoadError
  | srcDirNotInitialized
  | moduleNotFound (name : String)
  | invalidUtf8 (name : String)
  | transpileFailed (msg : String)
deriving DecidableEq

/-- Shared tail of both loaders: UTF-8 check, then `transpile_jsx` when
the module name ends in `.jsx`, else the text verbatim. -/
def finishLoad (transpileJsxFn : String → Except String String)
    (module_name : String) (c : Option String) : Except LoadError String :=
  match c with
  | none => Except.error (LoadError.invalidUtf8 module_name)
  | some source =>
    if endsWithStr ".jsx" module_name then
      match transpileJsxFn source with
      | Except.error e => Except.error (LoadError.transpileFailed e)
      | Except.ok t => Except.ok t
    else Except.ok source

/-- The loader `context::module_loader` of `runtime.rs` (lines 333-362), the loader
the workers install: `/jsx-runtime` is built in; otherwise `get_file` on
the exact name — a directory entry is not a file, so it fails. -/
def runtime_module_loader (tree : Option VTree)
    (transpileJsxFn : String → Except String String) (jsxSource : String)
    (module_name : String) : Except LoadError String :=
  if module_name = "/jsx-runtime" then Except.ok jsxSource
  else
    match tree with
    | none => Except.error LoadError.srcDirNotInitialized
    | some dir =>
      match getEntry dir module_name with
      | some (VEntry.vfile c) => finishLoad transpileJsxFn module_name c
      | _ => Except.error (LoadError.moduleNotFound module_name)

/-- The loader `module_loader` of `context.rs` (lines 127-170): like the runtime
loader but `get_entry` is used and a directory entry falls back to its
`index.js` file. -/
def context_module_loader (tree : Option VTree)
    (transpileJsxFn : String → Except String String) (jsxSource : String)
    (module_name : String) : Except LoadError String :=
  if module_name = "/jsx-runtime" then Except.ok jsxSource
  else
    match tree with
    | none => Except.error LoadError.srcDirNotInitialized
    | some dir =>
      match getEntry dir module_name with
      | some VEntry.vdir =>
        match getEntry dir (module_name ++ "/index.js") with
        | some (VEntry.vfile c) => finishLoad transpileJsxFn module_name c
        | _ => Except.error (LoadError.moduleNotFound module_name)
      | some (VEntry.vfile c) => finishLoad transpileJsxFn module_name c
      | none => Except.error (LoadError.moduleNotFound module_name)

/-! ### Worker initialisation (`context::init`, runtime.rs 277-331) -/

/-- Oracle for the engine-level effects of `context::init`: context
construction, the `ctx` global, running the two bootstrap modules,
TypeScript transpilation, and compilation success. -/
structure InitEngine where
  buildOk : Except Error Unit
  setCtxGlobal : Except Error Unit
  runJsxRuntime : Except Error Unit
  runPagesIndex : Except Error Unit
  transpileTs : String → Except Error String
  compileOk : String → String → Except Error Unit

/-- The check `JS_SRC_DIR.get().map(|root| root.contains("pages/index.js"))
.unwrap_or(false)`. -/
def treeContainsPagesIndex (tree : Option VTree) : Bool :=
  match tree with
  | none => false
  | some t => (getEntry t "pages/index.js").isSome

/-- The compilation loop of `context::init` (runtime.rs 309-328): a name
ending in `.ts` is transpiled first; the (possibly transpiled) code is
compiled under its name and inserted; any failure aborts init. -/
def initFns (eng : InitEngine) :
    List (String × String) →
    Except Error (List (String × JsCompiledFunction))
  | [] => Except.ok []
  | (name, code) :: rest =>
    match (if endsWithStr ".ts" name then eng.transpileTs code
           else Except.ok code) with
    | Except.error e => Except.error e
    | Except.ok code' =>
      match eng.compileOk code' name with
      | Except.error e => Except.error e
      | Except.ok _ =>
        match initFns eng rest with
        | Except.error e => Except.error e
        | Except.ok table => Except.ok ((name, ⟨code', name⟩) :: table)

/-- Initialisation, `context::init` (runtime.rs 277-331): build the context, set the `ctx`
global, run `/jsx-runtime`, run `pages/index.js` when the source tree
contains it, then compile the configured functions. Every `?` failure
aborts initialisation. -/
def init (eng : InitEngine) (tree : Option VTree)
    (functions : List (String × String)) :
    Except Error (List (String × JsCompiledFunction)) :=
  match eng.buildOk with
  | Except.error e => Except.error e
  | Except.ok _ =>
    match eng.setCtxGlobal with
    | Except.error e => Except.error e
    | Except.ok _ =>
      match eng.runJsxRuntime with
      | Except.error e => Except.error e
      | Except.ok _ =>
        match (if treeContainsPagesIndex tree then eng.runPagesIndex
               else Except.ok ()) with
        | Except.error e => Except.error e
        | Except.ok _ => initFns eng functions

/-- The fate of a spawned worker thread (runtime.rs 133-161): `init` is
unwrapped with `.expect(..)`, so an init error panics the thread before
the receive loop; on success the worker serves with its table. -/
inductive WorkerStart
  | panicked (e : Error)
  | serving (table : List (String × JsCompiledFunction))
deriving DecidableEq

/-- The spawn step `Runtime::spawn_worker` up to the receive loop. -/
def spawn_worker (eng : InitEngine) (tree : Option VTree)
    (functions : List (String × String)) : WorkerStart :=
  match init eng tree functions with
  | Except.error e => WorkerStart.panicked e
  | Except.ok table => WorkerStart.serving table

/-! ### Concrete fixtures used by counterexamples and witnesses -/

/-- An init oracle whose `run_module("pages/index.js")` call fails and
everything else succeeds. -/
def engPagesFail : InitEngine :=
  ⟨Except.ok (), Except.ok (), Except.ok (),
   Except.error (Error.Execution "pages module failed"),
   fun c => Except.ok c, fun _ _ => Except.ok ()⟩

/-- An init oracle where everything succeeds and the transpiler prefixes
its input, making transpiled output distinguishable from the source. -/
def engPlain : InitEngine :=
  ⟨Except.ok (), Except.ok (), Except.ok (), Except.ok (),
   fun c => Except.ok ("transpiled:" ++ c), fun _ _ => Except.ok ()⟩

/-- A source tree containing a `pages/index.js` bundle file. -/
def treeWithPages : VTree :=
  ⟨[("pages/index.js", VEntry.vfile (some "globalThis.Pages = 0;"))]⟩

/-- A source tree with a directory `utils` holding an `index.js`. -/
def treeWithLib : VTree :=
  ⟨[("utils", VEntry.vdir),
    ("utils/index.js", VEntry.vfile (some "export const x = 1;"))]⟩

/-- An evaluation engine that performs one `console.log("test")` call and
returns `"2"`, regardless of input. -/
def engRun1 : Engine :=
  ⟨fun _ => Except.ok (), fun _ _ => ⟨[["test"]], Except.ok "2"⟩⟩

/-! ### Resolver lemmas -/

/-- Folding `step` over the classified, `.`-free segments equals folding
the spec's walk over the raw segments: a `.` is skipped either way. -/
theorem foldl_step_filterDot (segs : List String) (acc : List String) :
    List.foldl step acc ((segs.filter (fun x => x ≠ ".")).map classifySeg)
      = List.foldl specStep acc (segs.map SpecComp.seg) := by
  induction segs generalizing acc with
  | nil => rfl
  | cons s rest ih =>
    rw [List.map_cons, List.foldl_cons]
    by_cases hdot : s = "."
    · have hf : ((s :: rest).filter (fun x => x ≠ "."))
          = rest.filter (fun x => x ≠ ".") := by
        simp [List.filter_cons, hdot]
      have hs : specStep acc (SpecComp.seg s) = acc := by
        simp [specStep, hdot]
      rw [hf, hs]
      exact ih acc
    · have hf : ((s :: rest).filter (fun x => x ≠ "."))
          = s :: rest.filter (fun x => x ≠ ".") := by
        simp [List.filter_cons, hdot]
      have hs : step acc (classifySeg s) = specStep acc (SpecComp.seg s) := by
        by_cases hdd : s = ".."
        · simp [classifySeg, specStep, step, hdd]
        · simp [classifySeg, specStep, step, hdd, hdot]
      rw [hf, List.map_cons, List.foldl_cons, hs]
      exact ih _

/-- The code's component walk and the spec's component walk agree on every
path string. -/
theorem components_fold_eq (p : String) :
    List.foldl step [] (rustComponents p)
      = List.foldl specStep [] (specComponents p) := by
  unfold rustComponents specComponents
  by_cases habs : startsWithStr "/" p = true
  · simp only [habs, if_true, List.cons_append, List.nil_append,
      List.foldl_cons]
    exact foldl_step_filterDot (segsOf p) []
  · simp only [habs, Bool.false_eq_true, if_false, List.nil_append]
    cases hsegs : segsOf p with
    | nil => rfl
    | cons s rest =>
      by_cases hdot : s = "."
      · simp only [hdot, if_true, List.foldl_cons, List.map_cons]
        have h1 : specStep [] (SpecComp.seg ".") = [] := rfl
        rw [h1]
        have h2 := foldl_step_filterDot rest ([] : List String)
        simpa using h2
      · simp only [hdot, if_false]
        exact foldl_step_filterDot (s :: rest) []

/-- A `Normal` component produced by `classifySeg` is never `".."`. -/
theorem classifySeg_normal (x s : String)
    (h : classifySeg x = Component.normal s) : s ≠ ".." := by
  unfold classifySeg at h
  by_cases hx : x = ".."
  · rw [if_pos hx] at h
    simp at h
  · rw [if_neg hx] at h
    injection h with h1
    exact h1 ▸ hx

/-- Every `Normal` component of a parsed path holds a name other than
`".."` (those became `ParentDir`). -/
theorem rustComponents_good (p : String) :
    ∀ c ∈ rustComponents p, ∀ s, c = Component.normal s → s ≠ ".." := by
  intro c hc s hcs
  subst hcs
  unfold rustComponents at hc
  by_cases habs : startsWithStr "/" p = true
  · simp only [habs, if_true, List.mem_cons] at hc
    rcases hc with h | h
    · exact absurd h (by simp)
    · obtain ⟨x, _, hx⟩ := List.mem_map.mp h
      exact classifySeg_normal x s hx
  · simp only [habs, Bool.false_eq_true, if_false] at hc
    cases hsegs : segsOf p with
    | nil => rw [hsegs] at hc; simp at hc
    | cons a rest =>
      rw [hsegs] at hc
      by_cases hdot : a = "."
      · simp only [hdot, if_true, List.mem_cons] at hc
        rcases hc with h | h
        · exact absurd h (by simp)
        · obtain ⟨x, _, hx⟩ := List.mem_map.mp h
          exact classifySeg_normal x s hx
      · simp only [hdot, if_false] at hc
        obtain ⟨x, _, hx⟩ := List.mem_map.mp hc
        exact classifySeg_normal x s hx

/-- The walk `step` preserves the "all `..` at the front" shape of the parts list,
for components whose `Normal` payload is never `".."`. -/
theorem step_dots (acc : List String) (c : Component)
    (h : dotsPrefixOnly acc)
    (hc : ∀ s, c = Component.normal s → s ≠ "..") :
    dotsPrefixOnly (step acc c) := by
  obtain ⟨k, rest, hacc, hrest⟩ := h
  cases c with
  | rootDir => exact ⟨0, [], rfl, by simp⟩
  | curDir => exact ⟨k, rest, hacc, hrest⟩
  | normal s =>
    refine ⟨k, rest ++ [s], ?_, ?_⟩
    · show acc ++ [s] = _
      rw [hacc, List.append_assoc]
    · have hs := hc s rfl
      simp only [List.mem_append, List.mem_singleton]
      rintro (h1 | h2)
      · exact hrest h1
      · exact hs h2.symm
  | parentDir =>
    cases hl : acc.getLast? with
    | none =>
      have hnil : acc = [] := List.getLast?_eq_none_iff.mp hl
      show dotsPrefixOnly
        (match acc.getLast? with
         | some last => if last ≠ ".." then acc.dropLast else acc ++ [".."]
         | none => acc ++ [".."])
      rw [hl]
      exact ⟨1, [], by simp [hnil], by simp⟩
    | some last =>
      show dotsPrefixOnly
        (match acc.getLast? with
         | some last => if last ≠ ".." then acc.dropLast else acc ++ [".."]
         | none => acc ++ [".."])
      rw [hl]
      show dotsPrefixOnly
        (if last ≠ ".." then acc.dropLast else acc ++ [".."])
      by_cases hlast : last = ".."
      · rw [if_neg (by simp [hlast])]
        have hrne : rest = [] := by
          by_contra hne
          have h1 : acc.getLast? = rest.getLast? := by
            rw [hacc]
            exact List.getLast?_append_of_ne_nil _ hne
          have h2 : rest.getLast? = some (rest.getLast hne) :=
            List.getLast?_eq_getLast rest hne
          rw [h1, h2] at hl
          have h3 : rest.getLast hne = last := by injection hl
          have h4 : (".." : String) ∈ rest := by
            rw [← hlast, ← h3]
            exact List.getLast_mem hne
          exact hrest h4
        subst hrne
        rw [hacc, List.append_nil]
        exact ⟨k + 1, [], by rw [List.replicate_succ', List.append_nil],
          by simp⟩
      · rw [if_pos hlast]
        have hrne : rest ≠ [] := by
          intro hre
          subst hre
          rw [hacc, List.append_nil] at hl
          cases k with
          | zero => simp [List.replicate] at hl
          | succ j =>
            rw [List.replicate_succ', List.getLast?_concat] at hl
            have : (".." : String) = last := by injection hl
            exact hlast this.symm
        refine ⟨k, rest.dropLast, ?_, ?_⟩
        · rw [hacc, List.dropLast_append_of_ne_nil _ hrne]
        · intro hm
          exact hrest ((List.dropLast_sublist rest).mem hm)

/-- The parts invariant is preserved through the whole fold. -/
theorem foldl_step_dots : ∀ (l : List Component) (acc : List String),
    dotsPrefixOnly acc →
    (∀ c ∈ l, ∀ s, c = Component.normal s → s ≠ "..") →
    dotsPrefixOnly (List.foldl step acc l)
  | [], _, h, _ => h
  | c :: rest, acc, h, hl => by
    rw [List.foldl_cons]
    exact foldl_step_dots rest _
      (step_dots acc c h (hl c (List.mem_cons_self c rest)))
      (fun d hd => hl d (List.mem_cons_of_mem c hd))

/-! ### Claim theorems -/

/-- C4 (confirmed): for every base module name and raw specifier, the
module resolver returns the specifier unchanged when it does not start
with `./` or `../`; otherwise it joins `dirname(base)` with the specifier
and folds the path components left to right over an output list — skipping
`.`, appending normal components, on `..` popping the last element if it
exists and is not `..` and appending `..` otherwise, and clearing the list
on a root component — finally joining the remaining components with `/`.
`module_normalize` is the embedding of `context::module_normalize`
(runtime.rs 364-413); `normalize_spec` transcribes §4.3 of the spec. -/
theorem resolver_matches_spec_algorithm (base s : String) :
    module_normalize base s = normalize_spec base s := by
  unfold module_normalize normalize_spec normalizeParts
  by_cases hrel : (startsWithStr "./" s || startsWithStr "../" s) = true
  · simp only [hrel, if_true]
    exact congrArg joinWithSlash (components_fold_eq _)
  · simp only [hrel, Bool.false_eq_true, if_false]

/-- C5 (confirmed): the canonical name never escapes above the first root
component — components folded before a root component never influence the
output (a surviving `..` cannot pop past the clear), and the `..`
components surviving in the output always form a symbolic prefix of the
parts list. -/
theorem resolver_no_root_escape :
    (∀ (acc : List String) (pre post : List Component),
      List.foldl step acc (pre ++ Component.rootDir :: post)
        = List.foldl step [] post)
    ∧ ∀ p : String, dotsPrefixOnly (normalizeParts p) := by
  constructor
  · intro acc pre post
    rw [List.foldl_append]
    rfl
  · intro p
    exact foldl_step_dots (rustComponents p) []
      ⟨0, [], rfl, by simp⟩ (rustComponents_good p)

/-- C6 (confirmed): the resolver is idempotent on already-canonical names:
when the resolution result is non-relative (does not start with `./` or
`../`), resolving it again returns it unchanged. -/
theorem resolver_idempotent (base s : String)
    (h1 : startsWithStr "./" (module_normalize base s) = false)
    (h2 : startsWithStr "../" (module_normalize base s) = false) :
    module_normalize base (module_normalize base s)
      = module_normalize base s := by
  have h : ∀ r, startsWithStr "./" r = false →
      startsWithStr "../" r = false → module_normalize base r = r := by
    intro r hr1 hr2
    unfold module_normalize
    simp [hr1, hr2]
  exact h _ h1 h2

/-- Witness for C6 at a concrete resolution: `pages/index.js` importing
`./item.jsx` resolves to the canonical `pages/item.jsx`, which re-resolves
to itself. -/
theorem resolver_idempotent_witness :
    startsWithStr "./" (module_normalize "pages/index.js" "./item.jsx")
        = false
    ∧ startsWithStr "../" (module_normalize "pages/index.js" "./item.jsx")
        = false
    ∧ module_normalize "pages/index.js"
          (module_normalize "pages/index.js" "./item.jsx")
        = module_normalize "pages/index.js" "./item.jsx" :=
  ⟨by decide, by decide,
   resolver_idempotent "pages/index.js" "./item.jsx" (by decide) (by decide)⟩

/-- C1 (counterexample): with a compiled handle stored under the page name
`items`, preparation of `Page{name: "items"}` still returns inline source
text — not the stored handle — and that text reads `globalThis.Pages`, not
the `globalThis.__pages` text the claim quotes. -/
theorem page_prepare_cex :
    prepare_script (Script.RenderPage none "items")
        [("items", ⟨"invoker-src", "items"⟩)]
      = Except.ok (none, Function.Code
          "globalThis.Pages.items ? globalThis.Pages.items(args): \x27Page \x22items\x22 not found\x27")
    ∧ Function.Code
          "globalThis.Pages.items ? globalThis.Pages.items(args): \x27Page \x22items\x22 not found\x27"
        ≠ Function.Compiled ⟨"invoker-src", "items"⟩
    ∧ ("globalThis.Pages.items ? globalThis.Pages.items(args): \x27Page \x22items\x22 not found\x27" : String)
        ≠ "globalThis.__pages.items ? globalThis.__pages.items(args) : \x27Page \x22items\x22 not found\x27" :=
  ⟨rfl, by decide, by decide⟩

/-- C1 (amended, proved): for every `Page` request, script preparation
ignores the worker's function table and always returns the inline source
text `globalThis.Pages.<name> ? globalThis.Pages.<name>(args): 'Page
"<name>" not found'` to be evaluated. -/
theorem page_prepare_always_inline (args : Option Value) (name : String)
    (table : List (String × JsCompiledFunction)) :
    prepare_script (Script.RenderPage args name) table
      = Except.ok (args, Function.Code (pageFallback name)) := rfl

/-- C2 (counterexample): the failure for an absent name is not a dedicated
`FunctionNotFound` variant — the `Error` type of runtime.rs has no such
constructor — but `Unexpected` carrying a per-name formatted message, so
the error value even differs between two absent names. -/
theorem named_missing_cex :
    prepare_script (Script.CompiledFunction none "a") []
        = Except.error (Error.Unexpected "function a not found")
    ∧ prepare_script (Script.CompiledFunction none "b") []
        = Except.error (Error.Unexpected "function b not found")
    ∧ Error.Unexpected "function a not found"
        ≠ Error.Unexpected "function b not found" :=
  ⟨rfl, rfl, by decide⟩

/-- C2 (amended, proved): a `Named` request whose name is not a key of the
compiled-function table fails with `Unexpected("function <name> not
found")`, and for every stored key it succeeds with the stored compiled
handle and the request's args. -/
theorem named_lookup (args : Option Value) (name : String)
    (table : List (String × JsCompiledFunction)) :
    (tableGet table name = none →
      prepare_script (Script.CompiledFunction args name) table
        = Except.error
            (Error.Unexpected ("function " ++ name ++ " not found")))
    ∧ ∀ f, tableGet table name = some f →
      prepare_script (Script.CompiledFunction args name) table
        = Except.ok (args, Function.Compiled f) := by
  constructor
  · intro h
    show (match tableGet table name with
          | none => Except.error
              (Error.Unexpected ("function " ++ name ++ " not found"))
          | some f => Except.ok (args, Function.Compiled f)) = _
    rw [h]
  · intro f h
    show (match tableGet table name with
          | none => Except.error
              (Error.Unexpected ("function " ++ name ++ " not found"))
          | some f => Except.ok (args, Function.Compiled f)) = _
    rw [h]

/-- Witness for C2 at concrete tables: a stored `sum.js` is found, an
absent `nope` fails with the formatted `Unexpected` message. -/
theorem named_lookup_witness :
    prepare_script (Script.CompiledFunction none "sum.js")
        [("sum.js", ⟨"args.a+args.b", "sum.js"⟩)]
      = Except.ok (none, Function.Compiled ⟨"args.a+args.b", "sum.js"⟩)
    ∧ prepare_script (Script.CompiledFunction none "nope") []
        = Except.error (Error.Unexpected "function nope not found") :=
  ⟨(named_lookup none "sum.js" [("sum.js", ⟨"args.a+args.b", "sum.js"⟩)]).2
      ⟨"args.a+args.b", "sum.js"⟩ rfl,
   (named_lookup none "nope" []).1 rfl⟩

/-- C3 (counterexample): when `run_module("pages/index.js")` fails during
`context::init`, the worker panics (`.expect` in `spawn_worker`) instead of
entering its receive loop — the page-bundle failure is fatal, not merely
logged. -/
theorem worker_pages_failure_fatal_cex :
    spawn_worker engPagesFail (some treeWithPages) []
      = WorkerStart.panicked (Error.Execution "pages module failed") := rfl

/-- C3 (amended, proved): a failure of the page-bundle step (running the
pages module when the source tree contains `pages/index.js`) aborts
`context::init`, and the worker panics with that error instead of entering
the receive loop; when initialisation succeeds, a `Page` request for any
(possibly missing) page is still served — preparation never fails, it
yields the inline fallback whose evaluation produces the page-not-found
string. -/
theorem worker_pages_failure_fatal :
    (∀ (eng : InitEngine) (tree : Option VTree)
      (fns : List (String × String)) (e : Error),
      eng.buildOk = Except.ok () → eng.setCtxGlobal = Except.ok () →
      eng.runJsxRuntime = Except.ok () →
      treeContainsPagesIndex tree = true →
      eng.runPagesIndex = Except.error e →
      spawn_worker eng tree fns = WorkerStart.panicked e)
    ∧ ∀ (args : Option Value) (name : String)
        (table : List (String × JsCompiledFunction)),
      ∃ code, prepare_script (Script.RenderPage args name) table
        = Except.ok (args, Function.Code code) := by
  constructor
  · intro eng tree fns e h1 h2 h3 h4 h5
    unfold spawn_worker init
    simp [h1, h2, h3, h4, h5]
  · intro args name table
    exact ⟨pageFallback name, rfl⟩

/-- Witness for C3: the concrete failing oracle panics the worker, and a
missing page still prepares successfully. -/
theorem worker_pages_failure_fatal_witness :
    spawn_worker engPagesFail (some treeWithPages) []
      = WorkerStart.panicked (Error.Execution "pages module failed")
    ∧ ∃ code, prepare_script (Script.RenderPage none "missing") []
        = Except.ok (none, Function.Code code) :=
  ⟨worker_pages_failure_fatal.1 engPagesFail (some treeWithPages) []
      (Error.Execution "pages module failed") rfl rfl rfl (by decide) rfl,
   worker_pages_failure_fatal.2 none "missing" []⟩

/-- The shared loader tail never produces a module-not-found error: its
failures are `invalidUtf8` or `transpileFailed`. -/
theorem finishLoad_ne_notFound (trFn : String → Except String String)
    (name m : String) (c : Option String) :
    finishLoad trFn name c ≠ Except.error (LoadError.moduleNotFound m) := by
  unfold finishLoad
  cases c with
  | none => simp
  | some src =>
    by_cases hj : endsWithStr ".jsx" name = true
    · simp only [hj, if_true]
      cases trFn src <;> simp
    · simp only [hj, Bool.false_eq_true, if_false]
      simp

/-- C7 (counterexample): for the loader the workers actually install
(runtime.rs `context::module_loader`), a directory entry fails with
module-not-found even though its `index.js` exists; only the `context.rs`
loader variant performs the claimed fallback. -/
theorem loader_dir_fallback_cex :
    runtime_module_loader (some treeWithLib) (fun s => Except.ok s)
        "jsxsrc" "utils"
      = Except.error (LoadError.moduleNotFound "utils")
    ∧ isDirAt treeWithLib "utils" = true
    ∧ isFileAt treeWithLib "utils/index.js" = true
    ∧ context_module_loader (some treeWithLib) (fun s => Except.ok s)
        "jsxsrc" "utils"
      = Except.ok "export const x = 1;" :=
  ⟨rfl, rfl, rfl, rfl⟩

/-- C7 (amended, proved): with the source tree initialised and a name
other than `/jsx-runtime`, the worker's loader (runtime.rs) fails with
module-not-found exactly when no file exists at the exact name — a
directory gets no fallback; the `context.rs` loader variant returns the
contents of `<dir>/index.js` for a directory entry and fails with
module-not-found exactly when neither a file at the name nor such an
`index.js` exists. -/
theorem module_loader_characterization (t : VTree)
    (trFn : String → Except String String) (jsx name : String)
    (hname : name ≠ "/jsx-runtime") :
    (runtime_module_loader (some t) trFn jsx name
        = Except.error (LoadError.moduleNotFound name)
      ↔ isFileAt t name = false)
    ∧ (∀ c, getEntry t name = some VEntry.vdir →
        getEntry t (name ++ "/index.js") = some (VEntry.vfile (some c)) →
        endsWithStr ".jsx" name = false →
        context_module_loader (some t) trFn jsx name = Except.ok c)
    ∧ (context_module_loader (some t) trFn jsx name
        = Except.error (LoadError.moduleNotFound name)
      ↔ ¬(isFileAt t name = true
           ∨ (isDirAt t name = true
              ∧ isFileAt t (name ++ "/index.js") = true))) := by
  have hrt : runtime_module_loader (some t) trFn jsx name
      = match getEntry t name with
        | some (VEntry.vfile c) => finishLoad trFn name c
        | _ => Except.error (LoadError.moduleNotFound name) := by
    unfold runtime_module_loader
    rw [if_neg hname]
  have hct : context_module_loader (some t) trFn jsx name
      = match getEntry t name with
        | some VEntry.vdir =>
          match getEntry t (name ++ "/index.js") with
          | some (VEntry.vfile c) => finishLoad trFn name c
          | _ => Except.error (LoadError.moduleNotFound name)
        | some (VEntry.vfile c) => finishLoad trFn name c
        | none => Except.error (LoadError.moduleNotFound name) := by
    unfold context_module_loader
    rw [if_neg hname]
  refine ⟨?_, ?_, ?_⟩
  · rw [hrt]
    unfold isFileAt
    cases h1 : getEntry t name with
    | none => simp
    | some e =>
      cases e with
      | vdir => simp
      | vfile c => simp [finishLoad_ne_notFound trFn name name c]
  · intro c h1 h2 h3
    rw [hct, h1, h2]
    unfold finishLoad
    simp [h3]
  · rw [hct]
    unfold isFileAt isDirAt
    cases h1 : getEntry t name with
    | none => simp
    | some e =>
      cases e with
      | vfile c => simp [finishLoad_ne_notFound trFn name name c]
      | vdir =>
        cases h2 : getEntry t (name ++ "/index.js") with
        | none => simp
        | some e2 =>
          cases e2 with
          | vdir => simp
          | vfile c2 => simp [finishLoad_ne_notFound trFn name name c2]

/-- Witness for C7: on the concrete tree, an absent name fails with
module-not-found in the worker's loader, and the `context.rs` loader
returns the `index.js` contents of the `utils` directory. -/
theorem module_loader_witness :
    runtime_module_loader (some treeWithLib) (fun s => Except.ok s)
        "jsxsrc" "nope"
      = Except.error (LoadError.moduleNotFound "nope")
    ∧ context_module_loader (some treeWithLib) (fun s => Except.ok s)
        "jsxsrc" "utils"
      = Except.ok "export const x = 1;" :=
  ⟨(module_loader_characterization treeWithLib (fun s => Except.ok s)
      "jsxsrc" "nope" (by decide)).1.mpr (by decide),
   (module_loader_characterization treeWithLib (fun s => Except.ok s)
      "jsxsrc" "utils" (by decide)).2.1 "export const x = 1;" rfl rfl
      (by decide)⟩

/-- C8 (counterexample): a functions-map entry named `page.tsx` is
compiled verbatim — `ends_with(".ts")` is false for `.tsx` — even though
the transpiler would have produced a different text. -/
theorem init_tsx_not_transpiled_cex :
    initFns engPlain [("page.tsx", "const x = 1;")]
      = Except.ok [("page.tsx", ⟨"const x = 1;", "page.tsx"⟩)]
    ∧ engPlain.transpileTs "const x = 1;"
        = Except.ok "transpiled:const x = 1;"
    ∧ ("const x = 1;" : String) ≠ "transpiled:const x = 1;" :=
  ⟨rfl, rfl, by decide⟩

/-- C8 (amended, proved): at worker startup, for every entry of the
configured functions map, only a name ending in `.ts` is run through the
TypeScript transpiler; every other name — including `.tsx` — is compiled
verbatim; the (possibly transpiled) source is compiled under the entry's
name and inserted into the worker's table. -/
theorem init_ts_only_transpiled (eng : InitEngine)
    (fns : List (String × String)) :
    ∀ (name code : String) (table : List (String × JsCompiledFunction)),
    (name, code) ∈ fns → initFns eng fns = Except.ok table →
    ((endsWithStr ".ts" name = true →
      ∃ t, eng.transpileTs code = Except.ok t
        ∧ (name, (⟨t, name⟩ : JsCompiledFunction)) ∈ table)
    ∧ (endsWithStr ".ts" name = false →
      (name, (⟨code, name⟩ : JsCompiledFunction)) ∈ table)) := by
  induction fns with
  | nil =>
    intro name code table h
    exact absurd h (List.not_mem_nil _)
  | cons hd tl ih =>
    intro name code table hmem htable
    obtain ⟨n, c⟩ := hd
    unfold initFns at htable
    cases htr : (if endsWithStr ".ts" n then eng.transpileTs c
                 else Except.ok c) with
    | error e => rw [htr] at htable; simp at htable
    | ok c' =>
      rw [htr] at htable
      have htable2 : (match eng.compileOk c' n with
          | Except.error e => Except.error e
          | Except.ok _ =>
            match initFns eng tl with
            | Except.error e => Except.error e
            | Except.ok tb =>
              Except.ok ((n, (⟨c', n⟩ : JsCompiledFunction)) :: tb))
          = Except.ok table := htable
      cases hco : eng.compileOk c' n with
      | error e => rw [hco] at htable2; simp at htable2
      | ok u =>
        rw [hco] at htable2
        have htable3 : (match initFns eng tl with
            | Except.error e => Except.error e
            | Except.ok tb =>
              Except.ok ((n, (⟨c', n⟩ : JsCompiledFunction)) :: tb))
            = Except.ok table := htable2
        cases hrest : initFns eng tl with
        | error e => rw [hrest] at htable3; simp at htable3
        | ok table' =>
          rw [hrest] at htable3
          have h4 : (Except.ok ((n, (⟨c', n⟩ : JsCompiledFunction)) :: table')
                : Except Error (List (String × JsCompiledFunction)))
              = Except.ok table := htable3
          have htab : table = (n, ⟨c', n⟩) :: table' := by
            injection h4 with h5
            exact h5.symm
          subst htab
          rcases List.mem_cons.mp hmem with heq | hmemtl
          · have hn : name = n := congrArg Prod.fst heq
            have hc : code = c := congrArg Prod.snd heq
            subst hn
            subst hc
            constructor
            · intro hts
              rw [if_pos hts] at htr
              exact ⟨c', htr, by
                have : (⟨c', name⟩ : JsCompiledFunction) = ⟨c', name⟩ := rfl
                exact List.mem_cons_self _ _⟩
            · intro hts
              rw [if_neg (by simp [hts])] at htr
              have hcc : code = c' := by injection htr
              rw [← hcc]
              exact List.mem_cons_self _ _
          · have hres := ih name code table' hmemtl hrest
            constructor
            · intro hts
              obtain ⟨t, ht1, ht2⟩ := hres.1 hts
              exact ⟨t, ht1, List.mem_cons_of_mem _ ht2⟩
            · intro hts
              exact List.mem_cons_of_mem _ (hres.2 hts)

/-- Witness for C8: a concrete `.ts` entry is transpiled before being
stored, a concrete `.js` entry is stored verbatim. -/
theorem init_ts_only_transpiled_witness :
    (∃ t, engPlain.transpileTs "a+b" = Except.ok t
      ∧ ("sum.ts", (⟨t, "sum.ts"⟩ : JsCompiledFunction))
          ∈ [("sum.ts", (⟨"transpiled:a+b", "sum.ts"⟩ : JsCompiledFunction)),
             ("sum.js", (⟨"a+b", "sum.js"⟩ : JsCompiledFunction))])
    ∧ ("sum.js", (⟨"a+b", "sum.js"⟩ : JsCompiledFunction))
        ∈ [("sum.ts", (⟨"transpiled:a+b", "sum.ts"⟩ : JsCompiledFunction)),
           ("sum.js", (⟨"a+b", "sum.js"⟩ : JsCompiledFunction))] :=
  ⟨(init_ts_only_transpiled engPlain [("sum.ts", "a+b"), ("sum.js", "a+b")]
      "sum.ts" "a+b"
      [("sum.ts", ⟨"transpiled:a+b", "sum.ts"⟩),
       ("sum.js", ⟨"a+b", "sum.js"⟩)]
      (by decide) rfl).1 (by decide),
   (init_ts_only_transpiled engPlain [("sum.ts", "a+b"), ("sum.js", "a+b")]
      "sum.js" "a+b"
      [("sum.ts", ⟨"transpiled:a+b", "sum.ts"⟩),
       ("sum.js", ⟨"a+b", "sum.js"⟩)]
      (by decide) rfl).2 (by decide)⟩

/-- C9 (confirmed): every evaluation installs a fresh, initially empty
console buffer, so the replies of a worker are independent of any earlier
console state, and a successful reply's `console_output` is exactly the
fold of the current run's own console calls over the empty buffer. -/
theorem console_isolation (eng : Engine)
    (table : List (String × JsCompiledFunction)) (ctx ctx' : Ctx)
    (msgs : List Script) :
    workerLoop eng table ctx msgs = workerLoop eng table ctx' msgs
    ∧ ∀ (ctx0 : Ctx) (args : Option Value) (source : Function)
        (out : ScriptOutput),
      (eval eng ctx0 args source).1 = Except.ok out →
      out.console_output
        = List.foldl consoleLog "" (eng.run source args).consoleCalls := by
  constructor
  · induction msgs generalizing ctx ctx' with
    | nil => rfl
    | cons s rest ih =>
      show (handleMessage eng table ctx s).1
            :: workerLoop eng table (handleMessage eng table ctx s).2 rest
          = (handleMessage eng table ctx' s).1
            :: workerLoop eng table (handleMessage eng table ctx' s).2 rest
      have hfst : (handleMessage eng table ctx s).1
          = (handleMessage eng table ctx' s).1 := by
        unfold handleMessage
        cases prepare_script s table with
        | error e => rfl
        | ok p => rfl
      rw [hfst]
      exact congrArg _ (ih _ _)
  · intro ctx0 args source out h
    unfold eval at h
    cases hs : eng.serdeArgs args with
    | error e => rw [hs] at h; simp at h
    | ok u =>
      rw [hs] at h
      cases hr : (eng.run source args).result with
      | error e => rw [hr] at h; simp at h
      | ok res =>
        rw [hr] at h
        have h2 : (Except.ok (⟨res, List.foldl consoleLog ""
              (eng.run source args).consoleCalls⟩ : ScriptOutput)
                : Except Error ScriptOutput)
            = Except.ok out := h
        have h3 : (⟨res, List.foldl consoleLog ""
            (eng.run source args).consoleCalls⟩ : ScriptOutput) = out := by
          injection h2
        rw [← h3]

/-- Witness for C9: with a stale console state, the concrete engine's
reply still carries only its own `test` line. -/
theorem console_isolation_witness :
    workerLoop engRun1 [] ⟨"stale"⟩ [Script.Function none "1 + 1"]
      = workerLoop engRun1 [] ⟨""⟩ [Script.Function none "1 + 1"]
    ∧ (⟨"2", "test\n"⟩ : ScriptOutput).console_output
        = List.foldl consoleLog ""
            (engRun1.run (Function.Code "1 + 1") none).consoleCalls :=
  ⟨(console_isolation engRun1 [] ⟨"stale"⟩ ⟨""⟩
      [Script.Function none "1 + 1"]).1,
   (console_isolation engRun1 [] ⟨""⟩ ⟨""⟩ []).2 ⟨"stale"⟩ none
      (Function.Code "1 + 1") ⟨"2", "test\n"⟩ rfl⟩

/-- C10 (confirmed): for every `Page` request the worker evaluates, as
inline code, the fallback text in which the raw page name is spliced
verbatim three times, unvalidated and unescaped — so a page name that is
itself a JavaScript expression is evaluated as code. -/
theorem page_name_spliced_into_eval (eng : Engine)
    (table : List (String × JsCompiledFunction)) (ctx : Ctx)
    (args : Option Value) (name : String) :
    handleMessage eng table ctx (Script.RenderPage args name)
      = eval eng ctx args (Function.Code
          ("globalThis.Pages." ++ name ++ " ? globalThis.Pages." ++ name ++
            "(args): \x27Page \x22" ++ name ++ "\x22 not found\x27")) := rfl

end Js
